import Mathlib

/-!
Shallow embedding of the promptpress text-reduction pipeline:
tokenizer (`tokenize`, `isWord`, `isPunctuation`, `mergeContractions`),
the stemmer family (`PorterStemmer`, `SnowballStemmer`, `LancasterStemmer`,
`getStemmer`), the reduction pipeline (`trim`) and the token-savings
calculator (`calculateTokenSavings`).

Strings are embedded as `List Char` (`Str`).  JavaScript's `\w` character
class is exactly `[A-Za-z0-9_]` (the source regexes carry no Unicode flag),
so the word-character predicate is exact.  JavaScript's `toLowerCase` /
`toUpperCase` use the engine's full Unicode case mapping, under which one
character can map to a longer string; they are embedded as char-to-string
maps over an explicit table carrying the 52 ASCII letters plus the
length-changing specials exercised in this development, identity elsewhere.
-/

abbrev Str := List Char

/-- The JavaScript `\w` class: `[A-Za-z0-9_]`. -/
def isWordChar (c : Char) : Bool :=
  ('a' ≤ c && c ≤ 'z') || ('A' ≤ c && c ≤ 'Z') || ('0' ≤ c && c ≤ '9') || c = '_'

/-- The JavaScript `\s` class (whitespace characters). -/
def isSpaceChar (c : Char) : Bool :=
  c ∈ [' ', '\t', '\n', '\x0d', '\x0b', '\x0c', ' ', ' ',
       ' ', ' ', ' ', ' ', '　', '﻿']
  || (' ' ≤ c && c ≤ ' ')

/-- The tokenizer's word-run class `[\w']`: word characters plus apostrophe. -/
def isWordTokChar (c : Char) : Bool :=
  isWordChar c || c = '\''

/-- ASCII upper/lower letter pairs, used to embed JavaScript case conversion. -/
def lowerPairs : List (Char × Char) :=
  [('A','a'),('B','b'),('C','c'),('D','d'),('E','e'),('F','f'),('G','g'),
   ('H','h'),('I','i'),('J','j'),('K','k'),('L','l'),('M','m'),('N','n'),
   ('O','o'),('P','p'),('Q','q'),('R','r'),('S','s'),('T','t'),('U','u'),
   ('V','v'),('W','w'),('X','x'),('Y','y'),('Z','z')]

/-- `c` is an ASCII character. -/
def isAsciiChar (c : Char) : Bool := c ≤ '\x7f'

/-- The case-mapping table behind JavaScript's `toLowerCase`/`toUpperCase`,
as (character, full lowercase, full uppercase) rows.  JavaScript uses the
engine's full Unicode case mapping, under which a single character can map
to a longer string; this embedding carries the 52 ASCII letters plus the
length-changing specials exercised in this development — the sharp s pair
`'ß'`/`'ẞ'` (lowercase uppercases to the two-character "SS") and
the dotted/dotless i pair `'İ'`/`'ı'` (`'İ'` lowercases to
"i" followed by a combining dot) — and is the identity elsewhere. -/
def caseTable : List (Char × Str × Str) :=
  lowerPairs.map (fun p => (p.1, ([p.2], [p.1]))) ++
  lowerPairs.map (fun p => (p.2, ([p.2], [p.1]))) ++
  [('ß', (['ß'], ['S', 'S'])),
   ('ẞ', (['ß'], ['ẞ'])),
   ('İ', (['i', '̇'], ['İ'])),
   ('ı', (['ı'], ['I']))]

/-- `c.toUpperCase()`: the full case mapping, possibly multi-character. -/
def toUpperCS (c : Char) : Str :=
  match caseTable.find? (fun p => p.1 = c) with
  | some p => p.2.2
  | none => [c]

/-- `c.toLowerCase()`: the full case mapping, possibly multi-character. -/
def toLowerCS (c : Char) : Str :=
  match caseTable.find? (fun p => p.1 = c) with
  | some p => p.2.1
  | none => [c]

/-- `c` is an ASCII uppercase letter. -/
def isUpperC (c : Char) : Bool :=
  (lowerPairs.find? (fun p => p.1 = c)).isSome

/-- `c` is a non-uppercase ASCII character (auxiliary predicate for the
ASCII-restricted case lemmas). -/
def okChar (c : Char) : Bool := !isUpperC c && isAsciiChar c

/-- `s.toLowerCase()` on a whole string: each character's full lowercase
mapping, concatenated. -/
def toLowerStr (s : Str) : Str := (s.map toLowerCS).flatten

/-- Scanning loop of `text.match(/[\w']+|[^\w\s]/g)`: `acc` is the reversed
current run of `[\w']` characters.  A maximal word run becomes one token, any
other non-space character becomes its own single-character token, whitespace
only separates. -/
def tokenizeAux (acc : Str) : Str → List Str
  | [] => if acc.isEmpty then [] else [acc.reverse]
  | c :: rest =>
    if isWordTokChar c then
      tokenizeAux (c :: acc) rest
    else
      (if acc.isEmpty then [] else [acc.reverse]) ++
      (if isSpaceChar c then tokenizeAux [] rest else [c] :: tokenizeAux [] rest)

/-- `tokenize(text)`: `text.match(/[\w']+|[^\w\s]/g) || []`. -/
def tokenize (text : Str) : List Str := tokenizeAux [] text

/-- `isWord(token)`: `/^[\w']+$/.test(token)`. -/
def isWord (token : Str) : Bool :=
  !token.isEmpty && token.all isWordTokChar

/-- `isPunctuation(token)`: `/^[^\w\s]$/.test(token)`. -/
def isPunctuation (token : Str) : Bool :=
  token.length = 1 && token.all (fun c => !isWordChar c && !isSpaceChar c)

/-- `mergeContractions(text)`: `text.replace(/(\w)'(\w)/g, '$1$2')`; the
regex scan resumes after each replaced match. -/
def mergeContractions : Str → Str
  | [] => []
  | [c] => [c]
  | [c, d] => [c, d]
  | a :: q :: b :: rest =>
    if q = '\'' && isWordChar a && isWordChar b then
      a :: b :: mergeContractions rest
    else
      a :: mergeContractions (q :: b :: rest)

-- Stemmer family

/-- Case pattern of a word (`getCase` in both stemmer classes): `'U'` where
the one-character string equals its own uppercasing, else `'L'`. -/
def getCase (word : Str) : Str :=
  word.map (fun c => if [c] = toUpperCS c then 'U' else 'L')

/-- Reapply a recorded case pattern position by position (`restoreCase` in
both stemmer classes): a position marked `'U'` is mapped through the full
uppercasing — which can be more than one character — other positions and
positions at or beyond the pattern's length are kept, and the per-position
strings are concatenated (the source's `.map(...).join('')`). -/
def restoreCase : Str → Str → Str
  | [], _ => []
  | c :: cs, [] => c :: restoreCase cs []
  | c :: cs, p :: ps => (if p = 'U' then toUpperCS c else [c]) ++ restoreCase cs ps

/-- `w.endsWith(s)`. -/
def endsWith (w s : Str) : Bool := s.isSuffixOf w

/-- `w.slice(0, -s.length)`: drop the suffix `s` from `w`. -/
def removeSuffix (w s : Str) : Str := w.take (w.length - s.length)

namespace PorterStemmer

/-- The `vowels` regex `/[aeiou]/` tested on one character. -/
def isVowel (c : Char) : Bool := c ∈ ['a', 'e', 'i', 'o', 'u']

/-- `hasVowel(w)`. -/
def hasVowel (w : Str) : Bool := w.any isVowel

/-- Scanning loop of `measure`, carrying `previousWasVowel`. -/
def measureGo (prevVowel : Bool) : Str → Nat
  | [] => 0
  | c :: rest =>
    (if !isVowel c && prevVowel then 1 else 0) + measureGo (isVowel c) rest

/-- `measure(w)`: count of vowel-run → consonant-run transitions. -/
def measure (w : Str) : Nat := measureGo false w

/-- `endsWithDoubleConsonant(w)`. -/
def endsWithDoubleConsonant (w : Str) : Bool :=
  decide (w.length ≥ 2) &&
  (w.getD (w.length - 1) ' ' = w.getD (w.length - 2) ' ') &&
  !isVowel (w.getD (w.length - 1) ' ')

/-- `endsWithCVC(w)`: the last three characters are consonant, vowel,
consonant, and the final consonant is not w/x/y. -/
def endsWithCVC (w : Str) : Bool :=
  decide (w.length ≥ 3) &&
  (let lastThree := w.drop (w.length - 3)
   !isVowel (lastThree.getD 0 ' ') &&
   isVowel (lastThree.getD 1 ' ') &&
   !isVowel (lastThree.getD 2 ' ') &&
   !(lastThree.getD 2 ' ' ∈ ['w', 'x', 'y']))

/-- `step1a`. -/
def step1a (w : Str) : Str :=
  if endsWith w "sses".toList then w.take (w.length - 2)
  else if endsWith w "ies".toList then w.take (w.length - 2)
  else if endsWith w "ss".toList then w
  else if endsWith w "s".toList then w.take (w.length - 1)
  else w

/-- `step1bHelper`. -/
def step1bHelper (w : Str) : Str :=
  if endsWith w "at".toList || endsWith w "bl".toList || endsWith w "iz".toList then
    w ++ "e".toList
  else if endsWithDoubleConsonant w && !endsWith w "l".toList &&
      !endsWith w "s".toList && !endsWith w "z".toList then
    w.take (w.length - 1)
  else if decide (measure w = 1) && endsWithCVC w then
    w ++ "e".toList
  else w

/-- `step1b`.  A word cannot end in both `ed` and `ing`, so the source's
fall-through after a vowel-less `ed` stem is an else-if chain. -/
def step1b (w : Str) : Str :=
  if endsWith w "eed".toList then
    if measure (w.take (w.length - 3)) > 0 then w.take (w.length - 1) else w
  else if endsWith w "ed".toList && hasVowel (w.take (w.length - 2)) then
    step1bHelper (w.take (w.length - 2))
  else if endsWith w "ing".toList && hasVowel (w.take (w.length - 3)) then
    step1bHelper (w.take (w.length - 3))
  else w

/-- `step1c`. -/
def step1c (w : Str) : Str :=
  if endsWith w "y".toList && hasVowel (w.take (w.length - 1)) then
    w.take (w.length - 1) ++ "i".toList
  else w

/-- The shared suffix-table loop of `step2` and `step3`: first suffix that
matches with `measure(stem) > 0` is replaced, a match failing the measure
gate falls through to later table entries. -/
def replaceLoop : List (Str × Str) → Str → Str
  | [], w => w
  | (suffix, repl) :: rest, w =>
    if endsWith w suffix && decide (measure (removeSuffix w suffix) > 0) then
      removeSuffix w suffix ++ repl
    else replaceLoop rest w

/-- The `step2` suffix table, in object-literal insertion order. -/
def step2Rules : List (Str × Str) :=
  [("ational".toList, "ate".toList),
   ("tional".toList, "tion".toList),
   ("enci".toList, "ence".toList),
   ("anci".toList, "ance".toList),
   ("izer".toList, "ize".toList),
   ("abli".toList, "able".toList),
   ("alli".toList, "al".toList),
   ("entli".toList, "ent".toList),
   ("eli".toList, "e".toList),
   ("ousli".toList, "ous".toList),
   ("ization".toList, "ize".toList),
   ("ation".toList, "ate".toList),
   ("ator".toList, "ate".toList),
   ("alism".toList, "al".toList),
   ("iveness".toList, "ive".toList),
   ("fulness".toList, "ful".toList),
   ("ousness".toList, "ous".toList),
   ("aliti".toList, "al".toList),
   ("iviti".toList, "ive".toList),
   ("biliti".toList, "ble".toList)]

/-- `step2`. -/
def step2 (w : Str) : Str := replaceLoop step2Rules w

/-- The `step3` suffix table, in object-literal insertion order. -/
def step3Rules : List (Str × Str) :=
  [("icate".toList, "ic".toList),
   ("ative".toList, "".toList),
   ("alize".toList, "al".toList),
   ("iciti".toList, "ic".toList),
   ("ical".toList, "ic".toList),
   ("ful".toList, "".toList),
   ("ness".toList, "".toList)]

/-- `step3`. -/
def step3 (w : Str) : Str := replaceLoop step3Rules w

/-- The `step4` suffix list, in array order. -/
def step4Suffixes : List Str :=
  ["al".toList, "ance".toList, "ence".toList, "er".toList, "ic".toList,
   "able".toList, "ible".toList, "ant".toList, "ement".toList,
   "ment".toList, "ent".toList, "ion".toList, "ou".toList, "ism".toList,
   "ate".toList, "iti".toList, "ous".toList, "ive".toList, "ize".toList]

/-- The `step4` loop, including the source's `ion` special case: when the
`ion` stem ends in s/t the removal is gated by `measure > 1`, and in every
other case (the `else if`) the removal is also gated by `measure > 1`. -/
def step4Go : List Str → Str → Str
  | [], w => w
  | suffix :: rest, w =>
    if endsWith w suffix then
      if decide (suffix = "ion".toList) &&
          (endsWith (removeSuffix w suffix) "s".toList ||
           endsWith (removeSuffix w suffix) "t".toList) then
        if measure (removeSuffix w suffix) > 1 then removeSuffix w suffix
        else step4Go rest w
      else
        if measure (removeSuffix w suffix) > 1 then removeSuffix w suffix
        else step4Go rest w
    else step4Go rest w

/-- `step4`. -/
def step4 (w : Str) : Str := step4Go step4Suffixes w

/-- `step5` (5a then 5b; no word ends in both `e` and `ll`). -/
def step5 (w : Str) : Str :=
  if endsWith w "e".toList = true ∧
      (measure (w.take (w.length - 1)) > 1 ∨
       (measure (w.take (w.length - 1)) = 1 ∧
        ¬ endsWithCVC (w.take (w.length - 1)) = true)) then
    w.take (w.length - 1)
  else if endsWith w "ll".toList = true ∧ measure w > 1 then
    w.take (w.length - 1)
  else w

/-- `PorterStemmer.stem`. -/
def stem (word : Str) : Str :=
  if word.length < 3 then word
  else
    restoreCase
      (step5 (step4 (step3 (step2 (step1c (step1b (step1a (toLowerStr word))))))))
      (getCase word)

end PorterStemmer

/-- `SnowballStemmer extends PorterStemmer` with no overrides: its `stem`
is the inherited Porter `stem`. -/
def SnowballStemmer.stem (word : Str) : Str := PorterStemmer.stem word

namespace LancasterStemmer

/-- The Lancaster rule table, in array order. -/
def rules : List (Str × Str) :=
  [("ational".toList, "e".toList),
   ("iveness".toList, "e".toList),
   ("fulness".toList, "e".toList),
   ("ousness".toList, "e".toList),
   ("ization".toList, "e".toList),
   ("tional".toList, "e".toList),
   ("biliti".toList, "le".toList),
   ("icate".toList, "".toList),
   ("ative".toList, "".toList),
   ("alize".toList, "".toList),
   ("iciti".toList, "".toList),
   ("ical".toList, "".toList),
   ("ness".toList, "".toList),
   ("ance".toList, "".toList),
   ("ence".toList, "".toList),
   ("able".toList, "".toList),
   ("ible".toList, "".toList),
   ("ment".toList, "".toList),
   ("sion".toList, "t".toList),
   ("tion".toList, "t".toList),
   ("ator".toList, "e".toList),
   ("izer".toList, "".toList),
   ("ing".toList, "".toList),
   ("ed".toList, "".toList),
   ("er".toList, "".toList),
   ("ly".toList, "".toList),
   ("y".toList, "i".toList),
   ("es".toList, "".toList),
   ("s".toList, "".toList)]

/-- The Lancaster loop: the first rule whose suffix matches with at least
two characters remaining is applied, then the loop breaks. -/
def applyRules : List (Str × Str) → Str → Str
  | [], w => w
  | (suffix, repl) :: rest, w =>
    if endsWith w suffix = true ∧ w.length - suffix.length ≥ 2 then
      removeSuffix w suffix ++ repl
    else applyRules rest w

/-- `LancasterStemmer.stem`. -/
def stem (word : Str) : Str :=
  if word.length < 3 then word
  else restoreCase (applyRules rules (toLowerStr word)) (getCase word)

end LancasterStemmer

/-- The stemmer variant tags accepted by `getStemmer`. -/
inductive StemmerKind
  | porter
  | snowball
  | lancaster
deriving DecidableEq

/-- `getStemmer(type)`.  The TS `default` branch also returns the Porter
stemmer and is unreachable for the closed union type. -/
def getStemmer : StemmerKind → Str → Str
  | .porter => PorterStemmer.stem
  | .snowball => SnowballStemmer.stem
  | .lancaster => LancasterStemmer.stem


-- Reduction pipeline

/-- Modelled from the spec: the English stopword list from
`src/data/stopwords` is not among the provided sources.  The spec certifies
that "the" and "over" are English stopwords and that a negation word such as
"not" may also appear in the stopword table. -/
def englishStopwords : List Str :=
  ["the".toList, "over".toList, "not".toList]

/-- Modelled from the spec: the per-language stopword table from
`src/data/stopwords` is not among the provided sources; it maps language
tags to word lists, with an "english" entry. -/
def stopwords : List (Str × List Str) :=
  [("english".toList, englishStopwords)]

/-- Modelled from the spec: the language-agnostic negation set from
`src/data/stopwords` is not among the provided sources; the spec names
negators such as "not" that must survive stopword removal. -/
def negationWords : List Str :=
  ["not".toList, "no".toList, "never".toList, "nor".toList, "neither".toList]

/-- `stopwords[language] || stopwords.english`. -/
def langStopwords (language : Str) : List Str :=
  match stopwords.find? (fun p => p.1 = language) with
  | some p => p.2
  | none => englishStopwords

/-- `TrimOptions` with the source's defaults. -/
structure TrimOptions where
  removeStopwords : Bool := true
  removePunctuation : Bool := false
  removeSpaces : Bool := true
  useStemming : Bool := false
  stemmer : StemmerKind := .porter
  language : Str := "english".toList

/-- The per-token body of `trim`'s processing loop: punctuation is kept
unless `removePunctuation` is set; a word is dropped when `removeStopwords`
is set, its lowercase form is in the stopword set and not in the negation
set, and is otherwise (optionally) stemmed and kept; a token that is neither
punctuation nor word is skipped. -/
def processToken (opts : TrimOptions) (stopwordSet : List Str) (token : Str) :
    Option Str :=
  if isPunctuation token then
    if opts.removePunctuation then none else some token
  else if isWord token then
    if opts.removeStopwords = true ∧ toLowerStr token ∈ stopwordSet ∧
        toLowerStr token ∉ negationWords then none
    else some (if opts.useStemming then getStemmer opts.stemmer token else token)
  else none

/-- The `removeSpaces:false` join loop after the first token: no space
before a punctuation token; otherwise a single space (the source's
previous-token-is-punctuation branch emits the same separator). -/
def joinWithSpacesGo (prev : Str) : List Str → Str
  | [] => []
  | t :: rest =>
    (if isPunctuation t then t
     else if isPunctuation prev then ' ' :: t
     else ' ' :: t) ++ joinWithSpacesGo t rest

/-- The `removeSpaces:false` join of `trim` (step 5). -/
def joinWithSpaces : List Str → Str
  | [] => []
  | t :: rest => t ++ joinWithSpacesGo t rest

/-- The token list assembled by step 4 of `trim`. -/
def trimTokens (text : Str) (opts : TrimOptions) : List Str :=
  (tokenize (mergeContractions text)).filterMap
    (processToken opts ((langStopwords opts.language).map toLowerStr))

/-- `trim(text, options)`. -/
def trim (text : Str) (opts : TrimOptions) : Str :=
  if opts.removeSpaces then (trimTokens text opts).flatten
  else joinWithSpaces (trimTokens text opts)

-- Stats and savings

/-- One row of the static price table: input, output and optional cached
price per million tokens. -/
structure ModelPricing where
  input : ℚ
  output : ℚ
  cached : Option ℚ

/-- The static `MODEL_PRICING` table. -/
def MODEL_PRICING : List (Str × ModelPricing) :=
  [("gpt-4.1".toList, ⟨2.00, 8.00, some 0.50⟩),
   ("gpt-4.1-mini".toList, ⟨0.40, 1.60, some 0.10⟩),
   ("gpt-4.1-nano".toList, ⟨0.10, 0.40, some 0.025⟩),
   ("gpt-4.5-preview".toList, ⟨75.00, 150.00, some 37.50⟩),
   ("gpt-4o".toList, ⟨2.50, 10.00, some 1.25⟩),
   ("gpt-4o-mini".toList, ⟨0.15, 0.60, some 0.075⟩),
   ("o1".toList, ⟨15.00, 60.00, some 7.50⟩),
   ("o1-pro".toList, ⟨150.00, 600.00, none⟩),
   ("o1-mini".toList, ⟨1.10, 4.40, some 0.55⟩),
   ("o3-pro".toList, ⟨20.00, 80.00, none⟩),
   ("o3".toList, ⟨2.00, 8.00, some 0.50⟩),
   ("o3-mini".toList, ⟨1.10, 4.40, some 0.55⟩),
   ("claude-opus-4".toList, ⟨15.00, 75.00, some 1.50⟩),
   ("claude-sonnet-4".toList, ⟨3.00, 15.00, some 0.30⟩),
   ("claude-sonnet-3.7".toList, ⟨3.00, 15.00, some 0.30⟩),
   ("claude-sonnet-3.5".toList, ⟨3.00, 15.00, some 0.30⟩),
   ("claude-haiku-3.5".toList, ⟨0.80, 4.00, some 0.08⟩),
   ("claude-opus-3".toList, ⟨15.00, 75.00, some 1.50⟩),
   ("claude-haiku-3".toList, ⟨0.25, 1.25, some 0.03⟩)]

/-- A `CostEstimate` record. -/
structure CostEstimate where
  model : Str
  inputCost : ℚ
  outputCost : ℚ
  totalCost : ℚ
deriving DecidableEq

/-- A `TokenSavings` record. -/
structure TokenSavings where
  originalTokens : Nat
  compressedTokens : Nat
  tokensSaved : ℤ
  percentageSaved : ℚ
  costSavings : List CostEstimate

/-- `calculateTokenSavings(originalText, compressedText)`, parameterized by
the external token-counting collaborator `countTokens` (an opaque service
that maps text to a sub-word unit count). -/
def calculateTokenSavings (countTokens : Str → Nat)
    (originalText compressedText : Str) : TokenSavings :=
  let originalTokens := countTokens originalText
  let compressedTokens := countTokens compressedText
  let tokensSaved : ℤ := (originalTokens : ℤ) - (compressedTokens : ℤ)
  let percentageSaved : ℚ :=
    if originalTokens > 0 then ((tokensSaved : ℚ) / (originalTokens : ℚ)) * 100
    else 0
  let costSavings := MODEL_PRICING.map fun p =>
    let originalInputCost : ℚ := (originalTokens : ℚ) / 1000000 * p.2.input
    let compressedInputCost : ℚ := (compressedTokens : ℚ) / 1000000 * p.2.input
    let savedCost := originalInputCost - compressedInputCost
    { model := p.1, inputCost := savedCost, outputCost := 0,
      totalCost := savedCost : CostEstimate }
  { originalTokens := originalTokens, compressedTokens := compressedTokens,
    tokensSaved := tokensSaved, percentageSaved := percentageSaved,
    costSavings := costSavings }


-- Theorems
-- Basic tokenizer lemmas

theorem tokenizeAux_sumLen (l : Str) : ∀ acc : Str,
    ((tokenizeAux acc l).map List.length).sum ≤ acc.length + l.length := by
  induction l with
  | nil =>
    intro acc
    by_cases h : acc.isEmpty = true <;> simp [tokenizeAux, h]
  | cons c rest ih =>
    intro acc
    simp only [tokenizeAux]
    by_cases hw : isWordTokChar c = true
    · rw [if_pos hw]
      have h1 := ih (c :: acc)
      simp only [List.length_cons] at h1 ⊢
      omega
    · rw [if_neg hw]
      have h1 := ih ([] : Str)
      simp only [List.length_nil, Nat.zero_add] at h1
      have hemit : ((if acc.isEmpty = true then ([] : List Str) else [acc.reverse]).map
          List.length).sum ≤ acc.length := by
        by_cases h : acc.isEmpty = true <;> simp [h]
      by_cases hs : isSpaceChar c = true
      · rw [if_pos hs]
        simp only [List.map_append, List.sum_append, List.length_cons]
        omega
      · rw [if_neg hs]
        simp only [List.map_append, List.sum_append, List.map_cons,
          List.sum_cons, List.length_cons, List.length_nil]
        omega

theorem tokenize_sumLen (text : Str) :
    ((tokenize text).map List.length).sum ≤ text.length := by
  simpa using tokenizeAux_sumLen text []

theorem isWord_reverse_of_all (acc : Str) (hacc : acc.all isWordTokChar = true)
    (ha : ¬ acc.isEmpty = true) : isWord acc.reverse = true := by
  simp only [isWord, Bool.and_eq_true, Bool.not_eq_true']
  constructor
  · simp only [List.isEmpty_eq_true] at ha ⊢
    simpa [List.reverse_eq_nil_iff] using ha
  · rw [List.all_eq_true] at hacc ⊢
    exact fun c hc => hacc c (List.mem_reverse.mp hc)

/-- Tokens emitted by the scanning loop are classified: word runs satisfy
`isWord`, single other characters satisfy `isPunctuation`. -/
theorem tokenizeAux_classified (l : Str) : ∀ acc : Str,
    acc.all isWordTokChar = true →
    ∀ t ∈ tokenizeAux acc l, isWord t = true ∨ isPunctuation t = true := by
  induction l with
  | nil =>
    intro acc hacc t ht
    simp only [tokenizeAux] at ht
    by_cases ha : acc.isEmpty = true
    · rw [if_pos ha] at ht
      simp at ht
    · rw [if_neg ha] at ht
      simp only [List.mem_singleton] at ht
      subst ht
      exact Or.inl (isWord_reverse_of_all acc hacc ha)
  | cons c rest ih =>
    intro acc hacc t ht
    simp only [tokenizeAux] at ht
    by_cases hw : isWordTokChar c = true
    · rw [if_pos hw] at ht
      refine ih (c :: acc) ?_ t ht
      rw [List.all_eq_true] at hacc ⊢
      intro x hx
      rcases List.mem_cons.mp hx with hx | hx
      · exact hx ▸ hw
      · exact hacc x hx
    · rw [if_neg hw] at ht
      rw [List.mem_append] at ht
      rcases ht with ht | ht
      · by_cases ha : acc.isEmpty = true
        · rw [if_pos ha] at ht
          simp at ht
        · rw [if_neg ha] at ht
          simp only [List.mem_singleton] at ht
          subst ht
          exact Or.inl (isWord_reverse_of_all acc hacc ha)
      · by_cases hs : isSpaceChar c = true
        · rw [if_pos hs] at ht
          exact ih [] (by simp) t ht
        · rw [if_neg hs] at ht
          rcases List.mem_cons.mp ht with ht | ht
          · subst ht
            right
            have hwc : isWordChar c = false := by
              cases h : isWordChar c
              · rfl
              · exact absurd (by simp [isWordTokChar, h]) hw
            have hsc : isSpaceChar c = false := by
              cases h : isSpaceChar c
              · rfl
              · exact absurd h hs
            simp [isPunctuation, hwc, hsc]
          · exact ih [] (by simp) t ht

theorem mergeContractions_length (l : Str) :
    (mergeContractions l).length ≤ l.length := by
  induction l using mergeContractions.induct with
  | case1 => simp [mergeContractions]
  | case2 c => simp [mergeContractions]
  | case3 c d => simp [mergeContractions]
  | case4 a q b rest h ih =>
    simp only [mergeContractions, h, if_pos, List.length_cons]
    omega
  | case5 a q b rest h ih =>
    simp only [mergeContractions, h, if_neg, List.length_cons,
      Bool.false_eq_true, not_false_iff]
    simp only [List.length_cons] at ih
    omega


-- Length lemmas for the stemmer family

theorem length_take_le (w : Str) (k : Nat) : (w.take k).length ≤ w.length := by
  simp [List.length_take]

theorem endsWith_length_le {w s : Str} (h : endsWith w s = true) :
    s.length ≤ w.length := by
  rw [endsWith, List.isSuffixOf_iff_suffix] at h
  exact h.length_le

theorem removeSuffix_length_le (w s : Str) : (removeSuffix w s).length ≤ w.length :=
  length_take_le _ _

namespace PorterStemmer

theorem step1a_length (w : Str) : (step1a w).length ≤ w.length := by
  simp only [step1a]
  split
  · exact length_take_le _ _
  · split
    · exact length_take_le _ _
    · split
      · exact Nat.le_refl _
      · split
        · exact length_take_le _ _
        · exact Nat.le_refl _

theorem step1bHelper_length (w : Str) : (step1bHelper w).length ≤ w.length + 1 := by
  simp only [step1bHelper]
  split
  · simp
  · split
    · have := length_take_le w (w.length - 1)
      omega
    · split
      · simp
      · omega

theorem step1b_length (w : Str) : (step1b w).length ≤ w.length := by
  simp only [step1b]
  split
  · split
    · exact length_take_le _ _
    · exact Nat.le_refl _
  · split
    · rename_i h
      rw [Bool.and_eq_true] at h
      have h2 := endsWith_length_le h.1
      have e : ("ed".toList).length = 2 := rfl
      rw [e] at h2
      have h3 := step1bHelper_length (w.take (w.length - 2))
      have h4 : (w.take (w.length - 2)).length = w.length - 2 := by
        simp [List.length_take]
      omega
    · split
      · rename_i h
        rw [Bool.and_eq_true] at h
        have h2 := endsWith_length_le h.1
        have e : ("ing".toList).length = 3 := rfl
        rw [e] at h2
        have h3 := step1bHelper_length (w.take (w.length - 3))
        have h4 : (w.take (w.length - 3)).length = w.length - 3 := by
          simp [List.length_take]
        omega
      · exact Nat.le_refl _

theorem step1c_length (w : Str) : (step1c w).length ≤ w.length := by
  simp only [step1c]
  split
  · rename_i h
    rw [Bool.and_eq_true] at h
    have h2 := endsWith_length_le h.1
    have e : ("y".toList).length = 1 := rfl
    rw [e] at h2
    have h4 : (w.take (w.length - 1)).length = w.length - 1 := by
      simp [List.length_take]
    simp only [List.length_append, h4]
    have e2 : ("i".toList).length = 1 := rfl
    rw [e2]
    omega
  · exact Nat.le_refl _

theorem replaceLoop_length (rules : List (Str × Str)) (w : Str)
    (hr : ∀ p ∈ rules, (p.2 : Str).length ≤ (p.1 : Str).length) :
    (replaceLoop rules w).length ≤ w.length := by
  induction rules with
  | nil => simp [replaceLoop]
  | cons p rest ih =>
    obtain ⟨suffix, repl⟩ := p
    simp only [replaceLoop]
    split
    · rename_i h
      rw [Bool.and_eq_true] at h
      have hsle := endsWith_length_le h.1
      have hrl : repl.length ≤ suffix.length :=
        hr (suffix, repl) (List.mem_cons_self _ _)
      simp only [List.length_append, removeSuffix, List.length_take]
      omega
    · exact ih fun p hp => hr p (List.mem_cons_of_mem _ hp)

theorem step2_length (w : Str) : (step2 w).length ≤ w.length :=
  replaceLoop_length step2Rules w (by decide)

theorem step3_length (w : Str) : (step3 w).length ≤ w.length :=
  replaceLoop_length step3Rules w (by decide)

theorem step4Go_length (l : List Str) (w : Str) : (step4Go l w).length ≤ w.length := by
  induction l with
  | nil => simp [step4Go]
  | cons s rest ih =>
    simp only [step4Go]
    split
    · split
      · split
        · exact removeSuffix_length_le _ _
        · exact ih
      · split
        · exact removeSuffix_length_le _ _
        · exact ih
    · exact ih

theorem step4_length (w : Str) : (step4 w).length ≤ w.length :=
  step4Go_length step4Suffixes w

theorem step5_length (w : Str) : (step5 w).length ≤ w.length := by
  simp only [step5]
  split
  · exact length_take_le _ _
  · split
    · exact length_take_le _ _
    · exact Nat.le_refl _

end PorterStemmer

namespace LancasterStemmer

theorem applyRules_length (rules : List (Str × Str)) (w : Str)
    (hr : ∀ p ∈ rules, (p.2 : Str).length ≤ (p.1 : Str).length) :
    (applyRules rules w).length ≤ w.length := by
  induction rules with
  | nil => simp [applyRules]
  | cons p rest ih =>
    obtain ⟨suffix, repl⟩ := p
    simp only [applyRules]
    split
    · rename_i h
      have hsle := endsWith_length_le h.1
      have hrl : repl.length ≤ suffix.length :=
        hr (suffix, repl) (List.mem_cons_self _ _)
      simp only [List.length_append, removeSuffix, List.length_take]
      omega
    · exact ih fun p hp => hr p (List.mem_cons_of_mem _ hp)

end LancasterStemmer

-- Case-pattern lemmas

theorem toLowerCS_eq (x : Char) :
    (toLowerCS x = [x] ∧ caseTable.find? (fun p => p.1 = x) = none) ∨
    ∃ p ∈ caseTable, p.1 = x ∧ toLowerCS x = p.2.1 := by
  cases hf : caseTable.find? (fun p => p.1 = x) with
  | none => exact Or.inl ⟨by unfold toLowerCS; rw [hf], rfl⟩
  | some p =>
    have hpred := List.find?_some hf
    have hx : p.1 = x := of_decide_eq_true hpred
    exact Or.inr ⟨p, List.mem_of_find?_eq_some hf, hx,
      by unfold toLowerCS; rw [hf]⟩

theorem toUpperCS_eq (x : Char) :
    (toUpperCS x = [x] ∧ caseTable.find? (fun p => p.1 = x) = none) ∨
    ∃ p ∈ caseTable, p.1 = x ∧ toUpperCS x = p.2.2 := by
  cases hf : caseTable.find? (fun p => p.1 = x) with
  | none => exact Or.inl ⟨by unfold toUpperCS; rw [hf], rfl⟩
  | some p =>
    have hpred := List.find?_some hf
    have hx : p.1 = x := of_decide_eq_true hpred
    exact Or.inr ⟨p, List.mem_of_find?_eq_some hf, hx,
      by unfold toUpperCS; rw [hf]⟩

theorem isUpperC_false_of_find?_none {c : Char}
    (h : caseTable.find? (fun p => p.1 = c) = none) : isUpperC c = false := by
  rw [List.find?_eq_none] at h
  simp only [isUpperC]
  cases hf : lowerPairs.find? (fun p => p.1 = c) with
  | none => rfl
  | some p =>
    have hm := List.mem_of_find?_eq_some hf
    have hpred := List.find?_some hf
    have he : p.1 = c := of_decide_eq_true hpred
    have hsub : ∀ q ∈ lowerPairs, ∃ r ∈ caseTable, r.1 = q.1 := by decide
    obtain ⟨r, hr, hre⟩ := hsub p hm
    have hrc : r.1 = c := hre.trans he
    exact absurd (decide_eq_true hrc) (h r hr)

theorem eq_upperCS_of_isUpperC {c : Char} (h : isUpperC c = true) :
    [c] = toUpperCS c := by
  simp only [isUpperC, Option.isSome_iff_exists] at h
  obtain ⟨p, hp⟩ := h
  have hmem := List.mem_of_find?_eq_some hp
  have hpred := List.find?_some hp
  have heq : p.1 = c := of_decide_eq_true hpred
  have hall : ∀ q ∈ lowerPairs, [q.1] = toUpperCS q.1 := by decide
  rw [← heq]
  exact hall p hmem

theorem ascii_of_ok {c : Char} (h : okChar c = true) : isAsciiChar c = true := by
  simp only [okChar, Bool.and_eq_true] at h
  exact h.2

theorem notUpper_of_ok {c : Char} (h : okChar c = true) : isUpperC c = false := by
  simp only [okChar, Bool.and_eq_true, Bool.not_eq_true'] at h
  exact h.1

theorem toLowerCS_ascii_single {x : Char} (hx : isAsciiChar x = true) :
    ∃ d, toLowerCS x = [d] := by
  rcases toLowerCS_eq x with ⟨he, -⟩ | ⟨p, hm, hpx, he⟩
  · exact ⟨x, he⟩
  · have hall : ∀ q ∈ caseTable, isAsciiChar q.1 = true → (q.2.1).length = 1 := by
      decide
    obtain ⟨d, hd⟩ := List.length_eq_one.mp (hall p hm (by rw [hpx]; exact hx))
    exact ⟨d, he.trans hd⟩

theorem toUpperCS_ascii_single {x : Char} (hx : isAsciiChar x = true) :
    ∃ d, toUpperCS x = [d] := by
  rcases toUpperCS_eq x with ⟨he, -⟩ | ⟨p, hm, hpx, he⟩
  · exact ⟨x, he⟩
  · have hall : ∀ q ∈ caseTable, isAsciiChar q.1 = true → (q.2.2).length = 1 := by
      decide
    obtain ⟨d, hd⟩ := List.length_eq_one.mp (hall p hm (by rw [hpx]; exact hx))
    exact ⟨d, he.trans hd⟩

theorem okChar_toLowerCS {x : Char} (hx : isAsciiChar x = true) :
    ∀ c ∈ toLowerCS x, okChar c = true := by
  intro c hc
  rcases toLowerCS_eq x with ⟨he, hf⟩ | ⟨p, hm, hpx, he⟩
  · rw [he] at hc
    simp only [List.mem_singleton] at hc
    subst hc
    simp only [okChar, Bool.and_eq_true, Bool.not_eq_true']
    exact ⟨isUpperC_false_of_find?_none hf, hx⟩
  · rw [he] at hc
    have hall : ∀ q ∈ caseTable, isAsciiChar q.1 = true →
        ∀ d ∈ q.2.1, okChar d = true := by decide
    exact hall p hm (by rw [hpx]; exact hx) c hc

theorem ok_toLowerStr {w : Str} (hw : ∀ c ∈ w, isAsciiChar c = true) :
    ∀ c ∈ toLowerStr w, okChar c = true := by
  intro c hc
  simp only [toLowerStr, List.mem_flatten, List.mem_map] at hc
  obtain ⟨l, ⟨x, hx, rfl⟩, hcl⟩ := hc
  exact okChar_toLowerCS (hw x hx) c hcl

theorem toLowerStr_length_ascii {w : Str} (hw : ∀ c ∈ w, isAsciiChar c = true) :
    (toLowerStr w).length = w.length := by
  induction w with
  | nil => rfl
  | cons c cs ih =>
    obtain ⟨d, hd⟩ := toLowerCS_ascii_single (hw c (List.mem_cons_self _ _))
    have ih2 := ih fun x hx => hw x (List.mem_cons_of_mem _ hx)
    simp only [toLowerStr] at ih2 ⊢
    rw [List.map_cons, List.flatten_cons, List.length_append, hd,
      List.length_singleton, List.length_cons]
    omega

theorem restoreCase_length_ascii {s : Str} (hs : ∀ c ∈ s, isAsciiChar c = true) :
    ∀ pat : Str, (restoreCase s pat).length = s.length := by
  induction s with
  | nil => intro pat; rfl
  | cons c cs ih =>
    intro pat
    have hcs : ∀ x ∈ cs, isAsciiChar x = true :=
      fun x hx => hs x (List.mem_cons_of_mem _ hx)
    cases pat with
    | nil => simp only [restoreCase, List.length_cons, ih hcs]
    | cons p ps =>
      by_cases hp : p = 'U'
      · obtain ⟨d, hd⟩ := toUpperCS_ascii_single (hs c (List.mem_cons_self _ _))
        simp only [restoreCase, if_pos hp, hd, List.singleton_append,
          List.length_cons, ih hcs]
      · simp only [restoreCase, if_neg hp, List.singleton_append,
          List.length_cons, ih hcs]

theorem ok_take {w : Str} (hw : ∀ c ∈ w, okChar c = true) (k : Nat) :
    ∀ c ∈ w.take k, okChar c = true :=
  fun c hc => hw c (List.mem_of_mem_take hc)

theorem ok_append {w lit : Str} (hw : ∀ c ∈ w, okChar c = true)
    (hl : ∀ c ∈ lit, okChar c = true) : ∀ c ∈ w ++ lit, okChar c = true := by
  intro c hc
  rcases List.mem_append.mp hc with h | h
  exacts [hw c h, hl c h]

/-- If every character of `s` is a non-uppercase ASCII character, an
uppercase character in `restoreCase s pat` can only come from a `'U'` mark
in the pattern. -/
theorem restoreCase_upper {s : Str} (hs : ∀ c ∈ s, okChar c = true) :
    ∀ (pat : Str) (i : Nat) (c : Char), (restoreCase s pat).get? i = some c →
      isUpperC c = true → pat.get? i = some 'U' := by
  induction s with
  | nil =>
    intro pat i c hg _
    simp [restoreCase] at hg
  | cons a as ih =>
    intro pat i c hg hu
    have ha := hs a (List.mem_cons_self _ _)
    have has : ∀ c ∈ as, okChar c = true :=
      fun c hc => hs c (List.mem_cons_of_mem _ hc)
    cases pat with
    | nil =>
      cases i with
      | zero =>
        simp only [restoreCase, List.get?_cons_zero, Option.some.injEq] at hg
        subst hg
        exact absurd hu (by simp [notUpper_of_ok ha])
      | succ j =>
        simp only [restoreCase, List.get?_cons_succ] at hg
        have := ih has [] j c hg hu
        simp at this
    | cons p ps =>
      by_cases hp : p = 'U'
      · subst hp
        cases i with
        | zero => rfl
        | succ j =>
          obtain ⟨d, hd⟩ := toUpperCS_ascii_single (ascii_of_ok ha)
          simp only [restoreCase, if_pos rfl, hd, List.singleton_append,
            List.get?_cons_succ] at hg ⊢
          exact ih has ps j c hg hu
      · cases i with
        | zero =>
          simp only [restoreCase, if_neg hp, List.singleton_append,
            List.get?_cons_zero, Option.some.injEq] at hg
          subst hg
          exact absurd hu (by simp [notUpper_of_ok ha])
        | succ j =>
          simp only [restoreCase, if_neg hp, List.singleton_append,
            List.get?_cons_succ] at hg ⊢
          exact ih has ps j c hg hu

/-- A `'U'` mark in `getCase word` certifies that the input character at
that position equals its own full uppercasing. -/
theorem getCase_upper {word : Str} {i : Nat}
    (h : (getCase word).get? i = some 'U') :
    ∃ d, word.get? i = some d ∧ [d] = toUpperCS d := by
  simp only [getCase, List.get?_map] at h
  cases hw : word.get? i with
  | none => rw [hw] at h; simp at h
  | some d =>
    rw [hw] at h
    simp only [Option.map_some', Option.some.injEq] at h
    refine ⟨d, rfl, ?_⟩
    by_contra hne
    rw [if_neg hne] at h
    exact absurd h (by decide)

/-- For ASCII input, positions at or beyond the pattern's length are
returned unchanged. -/
theorem restoreCase_get?_of_pat_le {s : Str}
    (hs : ∀ c ∈ s, isAsciiChar c = true) : ∀ (pat : Str) (i : Nat),
    pat.length ≤ i → (restoreCase s pat).get? i = s.get? i := by
  induction s with
  | nil => intro pat i _; simp [restoreCase]
  | cons a as ih =>
    intro pat i hp
    have has : ∀ c ∈ as, isAsciiChar c = true :=
      fun c hc => hs c (List.mem_cons_of_mem _ hc)
    cases pat with
    | nil =>
      cases i with
      | zero => simp [restoreCase]
      | succ j =>
        simp only [restoreCase, List.get?_cons_succ]
        exact ih has [] j (by simp)
    | cons p ps =>
      cases i with
      | zero => simp at hp
      | succ j =>
        by_cases hq : p = 'U'
        · obtain ⟨d, hd⟩ := toUpperCS_ascii_single (hs a (List.mem_cons_self _ _))
          simp only [restoreCase, if_pos hq, hd, List.singleton_append,
            List.get?_cons_succ]
          exact ih has ps j (by simpa using hp)
        · simp only [restoreCase, if_neg hq, List.singleton_append,
            List.get?_cons_succ]
          exact ih has ps j (by simpa using hp)

namespace PorterStemmer

theorem ok_step1a {w : Str} (hw : ∀ c ∈ w, okChar c = true) :
    ∀ c ∈ step1a w, okChar c = true := by
  simp only [step1a]
  split
  · exact ok_take hw _
  · split
    · exact ok_take hw _
    · split
      · exact hw
      · split
        · exact ok_take hw _
        · exact hw

theorem ok_step1bHelper {w : Str} (hw : ∀ c ∈ w, okChar c = true) :
    ∀ c ∈ step1bHelper w, okChar c = true := by
  simp only [step1bHelper]
  split
  · exact ok_append hw (by decide)
  · split
    · exact ok_take hw _
    · split
      · exact ok_append hw (by decide)
      · exact hw

theorem ok_step1b {w : Str} (hw : ∀ c ∈ w, okChar c = true) :
    ∀ c ∈ step1b w, okChar c = true := by
  simp only [step1b]
  split
  · split
    · exact ok_take hw _
    · exact hw
  · split
    · exact ok_step1bHelper (ok_take hw _)
    · split
      · exact ok_step1bHelper (ok_take hw _)
      · exact hw

theorem ok_step1c {w : Str} (hw : ∀ c ∈ w, okChar c = true) :
    ∀ c ∈ step1c w, okChar c = true := by
  simp only [step1c]
  split
  · exact ok_append (ok_take hw _) (by decide)
  · exact hw

theorem ok_replaceLoop (rules : List (Str × Str)) {w : Str}
    (hr : ∀ p ∈ rules, ∀ c ∈ (p.2 : Str), okChar c = true)
    (hw : ∀ c ∈ w, okChar c = true) :
    ∀ c ∈ replaceLoop rules w, okChar c = true := by
  induction rules with
  | nil => simpa [replaceLoop] using hw
  | cons p rest ih =>
    obtain ⟨suffix, repl⟩ := p
    simp only [replaceLoop]
    split
    · exact ok_append (ok_take hw _)
        (hr (suffix, repl) (List.mem_cons_self _ _))
    · exact ih fun q hq => hr q (List.mem_cons_of_mem _ hq)

theorem ok_step2 {w : Str} (hw : ∀ c ∈ w, okChar c = true) :
    ∀ c ∈ step2 w, okChar c = true :=
  ok_replaceLoop step2Rules (by decide) hw

theorem ok_step3 {w : Str} (hw : ∀ c ∈ w, okChar c = true) :
    ∀ c ∈ step3 w, okChar c = true :=
  ok_replaceLoop step3Rules (by decide) hw

theorem ok_step4Go (l : List Str) {w : Str}
    (hw : ∀ c ∈ w, okChar c = true) :
    ∀ c ∈ step4Go l w, okChar c = true := by
  induction l with
  | nil => simpa [step4Go] using hw
  | cons s rest ih =>
    simp only [step4Go]
    split
    · split
      · split
        · exact ok_take hw _
        · exact ih
      · split
        · exact ok_take hw _
        · exact ih
    · exact ih

theorem ok_step4 {w : Str} (hw : ∀ c ∈ w, okChar c = true) :
    ∀ c ∈ step4 w, okChar c = true :=
  ok_step4Go step4Suffixes hw

theorem ok_step5 {w : Str} (hw : ∀ c ∈ w, okChar c = true) :
    ∀ c ∈ step5 w, okChar c = true := by
  simp only [step5]
  split
  · exact ok_take hw _
  · split
    · exact ok_take hw _
    · exact hw

/-- For an ASCII word, every character of the Porter transformation of the
lowercased word is a non-uppercase ASCII character. -/
theorem pipeline_ok (word : Str) (h : ∀ c ∈ word, isAsciiChar c = true) :
    ∀ c ∈ step5 (step4 (step3 (step2 (step1c (step1b (step1a (toLowerStr word))))))),
      okChar c = true :=
  ok_step5 (ok_step4 (ok_step3 (ok_step2 (ok_step1c (ok_step1b (ok_step1a
    (ok_toLowerStr h)))))))

/-- For an ASCII word, an uppercase character in the Porter stemmer's output
certifies that the input character at the same position equals its own full
uppercasing. -/
theorem porterStem_upper (word : Str) (ha : ∀ c ∈ word, isAsciiChar c = true)
    (i : Nat) (c : Char) (hg : (stem word).get? i = some c)
    (hu : isUpperC c = true) :
    ∃ d, word.get? i = some d ∧ [d] = toUpperCS d := by
  rw [stem] at hg
  split at hg
  · exact ⟨c, hg, eq_upperCS_of_isUpperC hu⟩
  · exact getCase_upper (restoreCase_upper (pipeline_ok word ha) _ i c hg hu)

/-- For an ASCII word, the Porter stem is no longer than the word. -/
theorem porterStem_length {word : Str}
    (h : ∀ c ∈ word, isAsciiChar c = true) :
    (stem word).length ≤ word.length := by
  simp only [stem]
  split
  · exact Nat.le_refl _
  · have hascii : ∀ c ∈ step5 (step4 (step3 (step2 (step1c (step1b (step1a
        (toLowerStr word))))))), isAsciiChar c = true :=
      fun c hc => ascii_of_ok (pipeline_ok word h c hc)
    rw [restoreCase_length_ascii hascii]
    have h0 := toLowerStr_length_ascii h
    have h1 := step1a_length (toLowerStr word)
    have h2 := step1b_length (step1a (toLowerStr word))
    have h3 := step1c_length (step1b (step1a (toLowerStr word)))
    have h4 := step2_length (step1c (step1b (step1a (toLowerStr word))))
    have h5 := step3_length (step2 (step1c (step1b (step1a (toLowerStr word)))))
    have h6 := step4_length (step3 (step2 (step1c (step1b (step1a (toLowerStr word))))))
    have h7 := step5_length (step4 (step3 (step2 (step1c (step1b (step1a (toLowerStr word)))))))
    omega

end PorterStemmer

theorem SnowballStemmer.snowballStem_length {word : Str}
    (h : ∀ c ∈ word, isAsciiChar c = true) :
    (SnowballStemmer.stem word).length ≤ word.length :=
  PorterStemmer.porterStem_length h

namespace LancasterStemmer

theorem ok_applyRules (rules : List (Str × Str)) {w : Str}
    (hr : ∀ p ∈ rules, ∀ c ∈ (p.2 : Str), okChar c = true)
    (hw : ∀ c ∈ w, okChar c = true) :
    ∀ c ∈ applyRules rules w, okChar c = true := by
  induction rules with
  | nil => simpa [applyRules] using hw
  | cons p rest ih =>
    obtain ⟨suffix, repl⟩ := p
    simp only [applyRules]
    split
    · exact ok_append (ok_take hw _)
        (hr (suffix, repl) (List.mem_cons_self _ _))
    · exact ih fun q hq => hr q (List.mem_cons_of_mem _ hq)

/-- For an ASCII word, an uppercase character in the Lancaster stemmer's
output certifies that the input character at the same position equals its
own full uppercasing. -/
theorem lancasterStem_upper (word : Str) (ha : ∀ c ∈ word, isAsciiChar c = true)
    (i : Nat) (c : Char) (hg : (stem word).get? i = some c)
    (hu : isUpperC c = true) :
    ∃ d, word.get? i = some d ∧ [d] = toUpperCS d := by
  rw [stem] at hg
  split at hg
  · exact ⟨c, hg, eq_upperCS_of_isUpperC hu⟩
  · exact getCase_upper (restoreCase_upper
      (ok_applyRules rules (by decide) (ok_toLowerStr ha)) _ i c hg hu)

/-- For an ASCII word, the Lancaster stem is no longer than the word. -/
theorem lancasterStem_length {word : Str}
    (h : ∀ c ∈ word, isAsciiChar c = true) :
    (stem word).length ≤ word.length := by
  simp only [stem]
  split
  · exact Nat.le_refl _
  · have hascii : ∀ c ∈ applyRules rules (toLowerStr word), isAsciiChar c = true :=
      fun c hc => ascii_of_ok (ok_applyRules rules (by decide) (ok_toLowerStr h) c hc)
    rw [restoreCase_length_ascii hascii]
    have h0 := toLowerStr_length_ascii h
    have h1 := applyRules_length rules (toLowerStr word) (by decide)
    omega

end LancasterStemmer

-- Pipeline lemmas

theorem langStopwords_eq (l : Str) : langStopwords l = englishStopwords := by
  rw [langStopwords]
  cases h : stopwords.find? (fun p => p.1 = l) with
  | none => rfl
  | some p =>
    have hmem := List.mem_of_find?_eq_some h
    simp only [stopwords, List.mem_singleton] at hmem
    rw [hmem]

theorem ascii_of_wordTok {c : Char} (h : isWordTokChar c = true) :
    isAsciiChar c = true := by
  simp only [isWordTokChar, isWordChar, Bool.or_eq_true, Bool.and_eq_true,
    decide_eq_true_eq] at h
  simp only [isAsciiChar, decide_eq_true_eq]
  rcases h with (((⟨-, hb⟩ | ⟨-, hb⟩) | ⟨-, hb⟩) | rfl) | rfl
  · exact le_trans hb (by decide)
  · exact le_trans hb (by decide)
  · exact le_trans hb (by decide)
  · decide
  · decide

theorem ascii_of_isWord {t : Str} (h : isWord t = true) :
    ∀ c ∈ t, isAsciiChar c = true := by
  simp only [isWord, Bool.and_eq_true] at h
  exact fun c hc => ascii_of_wordTok ((List.all_eq_true.mp h.2) c hc)

theorem processToken_length (opts : TrimOptions) (S : List Str) (t u : Str)
    (h : processToken opts S t = some u) : u.length ≤ t.length := by
  simp only [processToken] at h
  split at h
  · split at h
    · exact absurd h (by simp)
    · rw [Option.some.injEq] at h
      subst h
      exact Nat.le_refl _
  · split at h
    · rename_i hword
      split at h
      · exact absurd h (by simp)
      · rw [Option.some.injEq] at h
        subst h
        have hascii := ascii_of_isWord hword
        split
        · cases opts.stemmer
          · exact PorterStemmer.porterStem_length hascii
          · exact SnowballStemmer.snowballStem_length hascii
          · exact LancasterStemmer.lancasterStem_length hascii
        · exact Nat.le_refl _
    · exact absurd h (by simp)

theorem filterMap_sumLen (f : Str → Option Str) (l : List Str)
    (hf : ∀ t u, f t = some u → u.length ≤ t.length) :
    ((l.filterMap f).map List.length).sum ≤ (l.map List.length).sum := by
  induction l with
  | nil => simp
  | cons t rest ih =>
    rw [List.filterMap_cons]
    cases hft : f t with
    | none =>
      simp only [List.map_cons, List.sum_cons]
      omega
    | some u =>
      simp only [List.map_cons, List.sum_cons]
      have := hf t u hft
      omega

theorem trimTokens_sumLen (text : Str) (opts : TrimOptions) :
    ((trimTokens text opts).map List.length).sum ≤ text.length := by
  rw [trimTokens]
  calc ((List.filterMap (processToken opts
          ((langStopwords opts.language).map toLowerStr))
          (tokenize (mergeContractions text))).map List.length).sum
      ≤ ((tokenize (mergeContractions text)).map List.length).sum :=
        filterMap_sumLen _ _ (processToken_length opts _)
    _ ≤ (mergeContractions text).length := tokenize_sumLen _
    _ ≤ text.length := mergeContractions_length text

theorem not_wordTok_of_space {c : Char} (h : isSpaceChar c = true) :
    isWordTokChar c = false := by
  simp only [isSpaceChar, Bool.or_eq_true, Bool.and_eq_true,
    decide_eq_true_eq] at h
  rcases h with h | ⟨h1, h2⟩
  · simp only [List.mem_cons, List.not_mem_nil, or_false] at h
    rcases h with rfl | rfl | rfl | rfl | rfl | rfl | rfl | rfl | rfl | rfl |
      rfl | rfl | rfl | rfl <;> decide
  · by_contra hw
    rw [Bool.not_eq_false] at hw
    simp only [isWordTokChar, isWordChar, Bool.or_eq_true, Bool.and_eq_true,
      decide_eq_true_eq] at hw
    rcases hw with (((⟨ha, hb⟩ | ⟨ha, hb⟩) | ⟨ha, hb⟩) | rfl) | rfl
    · exact absurd (le_trans h1 hb) (by decide)
    · exact absurd (le_trans h1 hb) (by decide)
    · exact absurd (le_trans h1 hb) (by decide)
    · exact absurd h1 (by decide)
    · exact absurd h1 (by decide)

theorem tokenizeAux_spaces (l : Str) (h : l.all isSpaceChar = true) :
    tokenizeAux [] l = [] := by
  induction l with
  | nil => rfl
  | cons c rest ih =>
    rw [List.all_cons, Bool.and_eq_true] at h
    have hw := not_wordTok_of_space h.1
    simp [tokenizeAux, hw, h.1, ih h.2]

theorem mergeContractions_of_spaces (l : Str) (h : l.all isSpaceChar = true) :
    mergeContractions l = l := by
  induction l using mergeContractions.induct with
  | case1 => rfl
  | case2 c => rfl
  | case3 c d => rfl
  | case4 a q b rest hcond ih =>
    exfalso
    simp only [List.all_cons, Bool.and_eq_true] at h
    have hw := not_wordTok_of_space h.1
    rw [Bool.and_eq_true, Bool.and_eq_true] at hcond
    have : isWordChar a = true := hcond.1.2
    simp [isWordTokChar, this] at hw
  | case5 a q b rest hcond ih =>
    simp only [List.all_cons, Bool.and_eq_true] at h
    simp only [mergeContractions, if_neg hcond]
    rw [ih (by simp [h.2.1, h.2.2])]

-- Claim theorems

/-- C1 is false as stated: the input "x.y" is non-empty and the
configuration enables a reduction option (`useStemming`), yet with
`removeSpaces` disabled the join inserts a space after the punctuation
token, so `trim` returns "x. y", which is longer than the input. -/
theorem trim_length_counterexample :
    ("x.y".toList ≠ ([] : Str)) ∧
    ({ removeStopwords := false, removeSpaces := false, useStemming := true :
        TrimOptions }.useStemming = true) ∧
    ("x.y".toList).length <
      (trim ("x.y".toList)
        { removeStopwords := false, removeSpaces := false,
          useStemming := true }).length := by decide

/-- C1 (amended): for every non-empty input and every configuration with at
least one reduction option enabled in which `removeSpaces` is enabled, the
string returned by `trim` is no longer than the input. -/
theorem trim_length_le (text : Str) (opts : TrimOptions)
    (hne : text ≠ [])
    (hopt : opts.removeStopwords = true ∨ opts.removePunctuation = true ∨
      opts.removeSpaces = true ∨ opts.useStemming = true)
    (hspaces : opts.removeSpaces = true) :
    (trim text opts).length ≤ text.length := by
  rw [trim, if_pos hspaces, List.length_flatten]
  exact trimTokens_sumLen text opts

theorem trim_length_le_witness :
    (trim ("The dog".toList) { }).length ≤ ("The dog".toList).length :=
  trim_length_le ("The dog".toList) { } (by decide) (Or.inl rfl) rfl

/-- C2: evaluation of the light stemmer's step 4 at "communion": the stem
"commun" ends in neither "s" nor "t" and has measure greater than 1, and the
code nevertheless removes the "ion" suffix (its `else if` branch re-checks
only the measure, making the s/t guard ineffective), contradicting the
claim that such words keep "ion" at this stage. -/
theorem step4_ion_guard_bypassed :
    PorterStemmer.step4 ("communion".toList) = "commun".toList ∧
    endsWith ("commun".toList) ("s".toList) = false ∧
    endsWith ("commun".toList) ("t".toList) = false ∧
    1 < PorterStemmer.measure ("commun".toList) ∧
    PorterStemmer.stem ("communion".toList) = "commun".toList := by decide

/-- C3 counterexample: `isPunctuation` applied to a lone apostrophe returns
`true` (the claim predicts `false` because it counts the apostrophe as a
word character, while the code's `\w` class does not contain it). -/
theorem isPunctuation_apostrophe : isPunctuation ['\''] = true := by decide

/-- C3 (amended): `isPunctuation(t)` returns true iff `t` is exactly one
character and that character is neither a `\w` word character (letters,
digits, underscore — the apostrophe is not one) nor whitespace; in
particular a lone apostrophe is punctuation. -/
theorem isPunctuation_iff (t : Str) :
    isPunctuation t = true ↔
      ∃ c, t = [c] ∧ isWordChar c = false ∧ isSpaceChar c = false := by
  constructor
  · intro h
    simp only [isPunctuation, Bool.and_eq_true, decide_eq_true_eq,
      List.all_eq_true] at h
    obtain ⟨h1, h2⟩ := h
    cases t with
    | nil => simp at h1
    | cons c rest =>
      cases rest with
      | nil =>
        have hc := h2 c (by simp)
        refine ⟨c, rfl, ?_, ?_⟩
        · simpa using hc.1
        · simpa using hc.2
      | cons d ds =>
        simp only [List.length_cons] at h1
        omega
  · rintro ⟨c, rfl, hw, hs⟩
    simp [isPunctuation, hw, hs]

/-- C4: with `removeStopwords` enabled, a word token whose lowercase form is
in the negation set is never dropped by `trim`'s token loop — even when that
form is also in the resolved stopword set — while a word token whose
lowercase form is in the resolved stopword set and not in the negation set
is always dropped. -/
theorem wordTok_punct_apos {t : Str} (hw : isWord t = true)
    (hp : isPunctuation t = true) : t = ['\''] := by
  simp only [isPunctuation, Bool.and_eq_true, decide_eq_true_eq,
    List.all_eq_true] at hp
  obtain ⟨c, rfl⟩ := List.length_eq_one.mp hp.1
  have hwc : isWordTokChar c = true := by
    simp only [isWord, Bool.and_eq_true] at hw
    exact (List.all_eq_true.mp hw.2) c (by simp)
  have h1 : isWordChar c = false := by
    have h2 := hp.2 c (by simp)
    simpa using h2.1
  simp only [isWordTokChar, Bool.or_eq_true, decide_eq_true_eq] at hwc
  rcases hwc with h | h
  · rw [h1] at h
    exact absurd h (by decide)
  · rw [h]

theorem stopword_negation_filtering (opts : TrimOptions) (t : Str)
    (hrs : opts.removeStopwords = true) (hw : isWord t = true) :
    (toLowerStr t ∈ negationWords →
      processToken opts ((langStopwords opts.language).map toLowerStr) t ≠
        none) ∧
    (toLowerStr t ∈ (langStopwords opts.language).map toLowerStr →
      toLowerStr t ∉ negationWords →
      processToken opts ((langStopwords opts.language).map toLowerStr) t =
        none) := by
  constructor
  · intro hneg
    have hp : isPunctuation t = false := by
      cases hcon : isPunctuation t with
      | false => rfl
      | true =>
        rw [wordTok_punct_apos hw hcon] at hneg
        exact absurd hneg (by decide)
    rw [processToken, if_neg (by simp [hp]), if_pos hw,
      if_neg (fun hcon => hcon.2.2 hneg)]
    simp
  · intro hS hneg
    have hp : isPunctuation t = false := by
      cases hcon : isPunctuation t with
      | false => rfl
      | true =>
        have hS2 := hS
        rw [wordTok_punct_apos hw hcon, langStopwords_eq] at hS2
        exact absurd hS2 (by decide)
    rw [processToken, if_neg (by simp [hp]), if_pos hw,
      if_pos ⟨hrs, hS, hneg⟩]

theorem stopword_negation_filtering_witness :
    processToken { } ((langStopwords ({ } : TrimOptions).language).map
      toLowerStr) ("not".toList) ≠ none ∧
    processToken { } ((langStopwords ({ } : TrimOptions).language).map
      toLowerStr) ("the".toList) = none :=
  ⟨(stopword_negation_filtering { } ("not".toList) rfl (by decide)).1
      (by decide),
   (stopword_negation_filtering { } ("the".toList) rfl (by decide)).2
      (by decide) (by decide)⟩

/-- C5: `trim` is a total function: it returns a string for every input and
configuration; the empty string maps to the empty string, and an
all-whitespace input maps to the empty string. -/
theorem trim_total (text : Str) (opts : TrimOptions) :
    (∃ r : Str, trim text opts = r) ∧
    trim [] opts = [] ∧
    (text.all isSpaceChar = true → trim text opts = []) := by
  refine ⟨⟨trim text opts, rfl⟩, ?_, ?_⟩
  · cases h : opts.removeSpaces <;>
      simp [trim, trimTokens, tokenize, tokenizeAux, mergeContractions, h,
        joinWithSpaces]
  · intro hsp
    have h1 := mergeContractions_of_spaces text hsp
    have h2 := tokenizeAux_spaces text hsp
    cases h : opts.removeSpaces <;>
      simp [trim, trimTokens, tokenize, h1, h2, h, joinWithSpaces]

theorem trim_total_witness :
    trim ([' ', '\t']) { } = [] :=
  (trim_total [' ', '\t'] { }).2.2 (by decide)

/-- C6 is false as stated: on the word "ẞab" (capital sharp s, recorded
`'U'` since it equals its own uppercasing), the stemmers lowercase to "ßab",
transform it unchanged, and re-apply the pattern — but the full uppercasing
of `'ß'` is the two-character "SS", so the output "SSab" is longer than the
transformed word and its position 1 holds an uppercase 'S' although input
position 1 held the lowercase 'a'. -/
theorem stem_case_counterexample :
    PorterStemmer.stem ("ẞab".toList) = "SSab".toList ∧
    (PorterStemmer.stem ("ẞab".toList)).get? 1 = some 'S' ∧
    isUpperC 'S' = true ∧
    ("ẞab".toList).get? 1 = some 'a' ∧
    isUpperC 'a' = false ∧
    ¬ (restoreCase (toLowerStr ("ẞab".toList)) (getCase ("ẞab".toList))).length =
        (toLowerStr ("ẞab".toList)).length := by decide

/-- C6 (amended): for every word consisting of ASCII characters — in
particular every word token the pipeline passes to a stemmer — every
variant transforms the lowercased word and re-applies the recorded binary
case pattern positionally: an uppercase character in the output occurs only
at a position whose input character was recorded as uppercase (its
one-character string equals its own uppercasing); re-applying the pattern
preserves the transformed word's length, and positions at or beyond the
pattern's length are left as the (lowercase) transformed characters.  On
non-ASCII input, JavaScript's full case mapping can lengthen the result and
shift positions (re-application still never throws). -/
theorem stem_case_restoration :
    (∀ (v : StemmerKind) (word : Str), (∀ c ∈ word, isAsciiChar c = true) →
        ∀ (i : Nat) (c : Char), (getStemmer v word).get? i = some c →
        isUpperC c = true → ∃ d, word.get? i = some d ∧ [d] = toUpperCS d) ∧
    (∀ s pat : Str, (∀ c ∈ s, isAsciiChar c = true) →
        (restoreCase s pat).length = s.length) ∧
    (∀ s pat : Str, (∀ c ∈ s, isAsciiChar c = true) → ∀ i : Nat,
        pat.length ≤ i → (restoreCase s pat).get? i = s.get? i) := by
  refine ⟨?_, fun s pat hs => restoreCase_length_ascii hs pat,
    fun s pat hs i h => restoreCase_get?_of_pat_le hs pat i h⟩
  intro v word ha i c hg hu
  cases v
  · exact PorterStemmer.porterStem_upper word ha i c hg hu
  · exact PorterStemmer.porterStem_upper word ha i c hg hu
  · exact LancasterStemmer.lancasterStem_upper word ha i c hg hu

theorem stem_case_restoration_witness :
    ∃ d, ("Running".toList).get? 0 = some d ∧ [d] = toUpperCS d :=
  stem_case_restoration.1 .porter ("Running".toList) (by decide) 0 'R'
    (by decide) (by decide)

/-- C7: `calculateTokenSavings` reports `tokensSaved` as the unclamped
difference of the collaborator's counts, `percentageSaved` as
`100 × tokensSaved / originalTokens` (0 when `originalTokens` is 0), and for
every entry of the price table a cost record whose `inputCost` and
`totalCost` both equal `(originalTokens − compressedTokens) × inputPrice /
1,000,000` with `outputCost` 0. -/
theorem calculateTokenSavings_spec (countTokens : Str → Nat)
    (originalText compressedText : Str) :
    ((calculateTokenSavings countTokens originalText compressedText).tokensSaved =
        (countTokens originalText : ℤ) - (countTokens compressedText : ℤ)) ∧
    (countTokens originalText = 0 →
      (calculateTokenSavings countTokens originalText
        compressedText).percentageSaved = 0) ∧
    (countTokens originalText ≠ 0 →
      (calculateTokenSavings countTokens originalText
        compressedText).percentageSaved =
        100 * ((countTokens originalText : ℚ) -
          (countTokens compressedText : ℚ)) / (countTokens originalText : ℚ)) ∧
    (∀ p ∈ MODEL_PRICING,
      ({ model := p.1,
         inputCost := ((countTokens originalText : ℚ) -
           (countTokens compressedText : ℚ)) * p.2.input / 1000000,
         outputCost := 0,
         totalCost := ((countTokens originalText : ℚ) -
           (countTokens compressedText : ℚ)) * p.2.input / 1000000 } :
        CostEstimate) ∈
        (calculateTokenSavings countTokens originalText
          compressedText).costSavings) := by
  refine ⟨rfl, ?_, ?_, ?_⟩
  · intro h0
    show (if countTokens originalText > 0 then
        ((((countTokens originalText : ℤ) -
          (countTokens compressedText : ℤ) : ℤ) : ℚ) /
          (countTokens originalText : ℚ)) * 100 else 0) = 0
    rw [if_neg (by omega)]
  · intro h0
    show (if countTokens originalText > 0 then
        ((((countTokens originalText : ℤ) -
          (countTokens compressedText : ℤ) : ℤ) : ℚ) /
          (countTokens originalText : ℚ)) * 100 else 0) = _
    rw [if_pos (Nat.pos_of_ne_zero h0)]
    push_cast
    ring
  · intro p hp
    refine List.mem_map.mpr ⟨p, hp, ?_⟩
    simp only [CostEstimate.mk.injEq]
    exact ⟨trivial, by ring, trivial, by ring⟩

theorem calculateTokenSavings_spec_witness :
    (calculateTokenSavings (fun s => s.length) ("aaaaaaaaaa".toList)
      ("aaaaaa".toList)).percentageSaved = 40 := by
  have h := (calculateTokenSavings_spec (fun s => s.length)
    ("aaaaaaaaaa".toList) ("aaaaaa".toList)).2.2.1 (by decide)
  rw [h]
  have e1 : ("aaaaaaaaaa".toList).length = 10 := rfl
  have e2 : ("aaaaaa".toList).length = 6 := rfl
  rw [e1, e2]
  norm_num

/-- C8: the extended (snowball) stemmer variant returns exactly the light
(porter) variant's output on every word. -/
theorem snowball_eq_porter (word : Str) :
    SnowballStemmer.stem word = PorterStemmer.stem word := rfl

/-- C9: every token returned by `tokenize` satisfies `isWord` or
`isPunctuation`, so `trim`'s token loop classifies every token. -/
theorem tokenize_classified (text t : Str) (h : t ∈ tokenize text) :
    isWord t = true ∨ isPunctuation t = true :=
  tokenizeAux_classified text [] (by simp) t h

theorem tokenize_classified_witness :
    isWord ("ab".toList) = true ∨ isPunctuation ("ab".toList) = true :=
  tokenize_classified ("ab".toList) ("ab".toList) (by decide)

/-- C10 is false as stated: the stemmers' case restoration maps a
`'U'`-marked position through the full uppercasing, and `'ß'` uppercases to
the two-character "SS", so stem("ẞab") = "SSab" is longer than its input. -/
theorem stem_lengthens_counterexample :
    ("ẞab".toList).length < (getStemmer .porter ("ẞab".toList)).length ∧
    getStemmer .porter ("ẞab".toList) = "SSab".toList := by decide

/-- C10 (amended): for every input word consisting of ASCII characters — in
particular every word token the pipeline passes to a stemmer — and every
stemmer variant, the stemmed word is no longer than the input word. -/
theorem getStemmer_length_le (v : StemmerKind) (w : Str)
    (h : ∀ c ∈ w, isAsciiChar c = true) :
    (getStemmer v w).length ≤ w.length := by
  cases v
  · exact PorterStemmer.porterStem_length h
  · exact SnowballStemmer.snowballStem_length h
  · exact LancasterStemmer.lancasterStem_length h

theorem getStemmer_length_le_witness :
    (getStemmer .porter ("Running".toList)).length ≤
      ("Running".toList).length :=
  getStemmer_length_le .porter ("Running".toList) (by decide)
